import Mathlib

/-!
# Verification of the task-inventory registry (`crates/project/src/task_inventory.rs`)

Shallow embedding of the `Inventory` registry: an ordered list of task-source
registrations plus a bounded FIFO usage history, with the aggregated/sorted
`list_tasks` query, `add_static_source` registration (deduplicated by absolute
path), removal operations, usage recording (`task_scheduled`) and
`last_scheduled_task` lookup.

Modelling conventions:
* `TaskId`, absolute paths and task names are Lean `String`s; `WorktreeId` is `Nat`.
* A `TaskSource`'s internal mutable state is an opaque value (`SourceState`,
  here `Nat`); `tasksForPath` is its state-transition function, mirroring
  `fn tasks_for_path(&mut self, path, cx) -> Vec<Arc<dyn Task>>` which may
  mutate the source while producing its task list.  In the original the state
  lives behind a `Model` handle in the reactive context; here it is stored
  inline in the registration record.
* Rust's `TypeId` is an opaque `Nat` tag carried by each source.
* The `VecDeque` usage history is a `List` whose head is the deque's front.
* The `HashMap` of LRU scores is an association list (only `get`/`entry`
  by key are used, so the representation is irrelevant).
* `cx.notify()` calls are modelled by explicit `Bool` flags in operation
  results; the per-source change subscription (reactive plumbing) is out of
  scope, as is `log::debug!`.
-/

namespace TaskInv

/-- Task identifiers: opaque, equality-comparable values (`task::TaskId`). -/
abbrev TaskId := String

/-- Worktree identifiers (`project_core::worktree::WorktreeId`): opaque ids. -/
abbrev WorktreeId := Nat

/-- Absolute filesystem paths (`PathBuf`), treated as opaque strings. -/
abbrev AbsolutePath := String

/-- The opaque internal state of a task source. -/
abbrev SourceState := Nat

/-- A task, opaque to the registry except for its identifier and name. -/
structure Task where
  id : TaskId
  name : String
deriving DecidableEq

/-- A task source: internal state, a state-transforming `tasks_for_path`,
and the `TypeId` tag of its concrete Rust type. -/
structure TaskSource where
  state : SourceState
  tasksForPath : SourceState → Option AbsolutePath → List Task × SourceState
  type_id : Nat

/-- `TaskSourceKind`: where a source's definitions come from. -/
inductive TaskSourceKind where
  | UserInput : TaskSourceKind
  | AbsPath (abs_path : AbsolutePath) : TaskSourceKind
  | Worktree (id : WorktreeId) (abs_path : AbsolutePath) : TaskSourceKind
deriving DecidableEq

/-- `TaskSourceKind::abs_path`: the path carried by the kind, if any. -/
def TaskSourceKind.abs_path : TaskSourceKind → Option AbsolutePath
  | .AbsPath abs_path => some abs_path
  | .Worktree _ abs_path => some abs_path
  | .UserInput => none

/-- `TaskSourceKind::worktree`: the worktree id carried by the kind, if any. -/
def TaskSourceKind.worktree : TaskSourceKind → Option WorktreeId
  | .Worktree id _ => some id
  | _ => none

/-- `SourceInInventory`: one source registration record
(the `_subscription` field is reactive plumbing and is not modelled). -/
structure SourceInInventory where
  source : TaskSource
  type_id : Nat
  kind : TaskSourceKind

/-- The `Inventory`: registered sources plus the bounded usage history. -/
structure Inventory where
  sources : List SourceInInventory
  last_scheduled_tasks : List TaskId

/-- `Inventory::new`: empty registry, empty history. -/
def Inventory.new : Inventory := ⟨[], []⟩

/-- Result of `add_static_source`: the updated inventory, whether the
`create_static_source` factory was invoked, and whether `cx.notify()` ran. -/
structure AddStaticSourceResult where
  inventory : Inventory
  factory_invoked : Bool
  notified : Bool

/-- `Inventory::add_static_source`: if the kind carries a path equal to the
path of an already-registered kind, silently do nothing; otherwise invoke the
factory, append the new registration and notify. -/
def Inventory.add_static_source (inv : Inventory) (kind : TaskSourceKind)
    (create_static_source : Unit → TaskSource) : AddStaticSourceResult :=
  let abs_path := kind.abs_path
  if abs_path.isSome && (inv.sources.any fun s => s.kind.abs_path == abs_path) then
    { inventory := inv, factory_invoked := false, notified := false }
  else
    let source := create_static_source ()
    let type_id := source.type_id
    { inventory := { inv with
        sources := inv.sources ++ [{ source := source, type_id := type_id, kind := kind }] }
      factory_invoked := true
      notified := true }

/-- `Inventory::remove_local_static_source`: retain sources whose kind does
not carry exactly this path. -/
def Inventory.remove_local_static_source (inv : Inventory) (abs_path : AbsolutePath) :
    Inventory :=
  { inv with sources := inv.sources.filter fun s => !(s.kind.abs_path == some abs_path) }

/-- `Inventory::remove_worktree_sources`: retain sources whose kind does not
carry this worktree id. -/
def Inventory.remove_worktree_sources (inv : Inventory) (worktree : WorktreeId) : Inventory :=
  { inv with sources := inv.sources.filter fun s => !(s.kind.worktree == some worktree) }

/-- `Inventory::source::<T>`: first registered source whose type tag matches. -/
def Inventory.source (inv : Inventory) (target_type_id : Nat) : Option TaskSource :=
  inv.sources.findSome? fun s =>
    if target_type_id = s.type_id then some s.source else none

/-- `Inventory::task_scheduled`: push the id at the back of the history and,
if the history now exceeds 5000 entries, pop one entry from the front. -/
def Inventory.task_scheduled (inv : Inventory) (id : TaskId) : Inventory :=
  let h := inv.last_scheduled_tasks ++ [id]
  if h.length > 5000 then { inv with last_scheduled_tasks := h.tail }
  else { inv with last_scheduled_tasks := h }

/-- The LRU-score accumulation of `list_tasks`: fold over the usage history
from most recent to least recent (`.iter().rev()`), giving each identifier not
yet in the map the next score (`tasks.entry(id).or_insert_with(post_inc)`,
with `util::post_inc` inlined: return the counter, then increment it).
Returns the score map together with the final counter value. -/
def buildRanks : List TaskId → List (TaskId × Nat) → Nat → List (TaskId × Nat) × Nat
  | [], tasks, lru_score => (tasks, lru_score)
  | id :: rest, tasks, lru_score =>
    if tasks.any fun p => p.1 == id then buildRanks rest tasks lru_score
    else buildRanks rest (tasks ++ [(id, lru_score)]) (lru_score + 1)

/-- `HashMap::get` on the modelled score map. -/
def lookupRank (tasks_by_usage : List (TaskId × Nat)) (id : TaskId) : Option Nat :=
  (tasks_by_usage.find? fun p => p.1 == id).map fun p => p.2

/-- The `tasks_by_usage` map and the `not_used_score` of one `list_tasks`
call: the fold over the reversed history when `lru` is set, the empty map
otherwise; `not_used_score` is the final `post_inc(&mut lru_score)`. -/
def Inventory.usageData (inv : Inventory) (lru : Bool) : List (TaskId × Nat) × Nat :=
  if lru then buildRanks inv.last_scheduled_tasks.reverse [] 0 else ([], 0)

/-- The score attached to one task in `list_tasks`:
`if lru { map.get(id).copied().unwrap_or(not_used_score) } else { not_used_score }`. -/
def scoreFrom (usage : List (TaskId × Nat) × Nat) (lru : Bool) (id : TaskId) : Nat :=
  if lru then (lookupRank usage.1 id).getD usage.2 else usage.2

/-- The score `list_tasks inv _ _ lru` attaches to a task with this id. -/
def Inventory.scoreOf (inv : Inventory) (lru : Bool) (id : TaskId) : Nat :=
  scoreFrom (inv.usageData lru) lru id

/-- The source filter of `list_tasks`:
`worktree.is_none() || source_worktree.is_none() || source_worktree == worktree`. -/
def participates (worktree : Option WorktreeId) (s : SourceInInventory) : Bool :=
  worktree.isNone || (s.kind.worktree).isNone || s.kind.worktree == worktree

/-- The filter + fan-out stage of `list_tasks`, with source-state threading:
each participating source is queried (`source.update(cx, |s, cx|
s.tasks_for_path(path, cx))`) and its returned tasks are paired with its kind;
non-participating sources are neither queried nor changed.  Returns the
concatenated `(kind, task)` pairs in source order together with the source
list afterwards (identical except for updated internal states). -/
def fanOut (worktree : Option WorktreeId) (path : Option AbsolutePath) :
    List SourceInInventory → List (TaskSourceKind × Task) × List SourceInInventory
  | [] => ([], [])
  | s :: rest =>
    if participates worktree s then
      let r := s.source.tasksForPath s.source.state path
      let s' : SourceInInventory := { s with source := { s.source with state := r.2 } }
      let tail := fanOut worktree path rest
      (r.1.map (fun t => (s.kind, t)) ++ tail.1, s' :: tail.2)
    else
      let tail := fanOut worktree path rest
      (tail.1, s :: tail.2)

/-- Rust `Ordering::cmp` on `bool` (`false < true`). -/
def boolCompare : Bool → Bool → Ordering
  | false, false => .eq
  | false, true => .lt
  | true, false => .gt
  | true, true => .eq

/-- Character comparison, as Rust compares `str` bytes (UTF-8 byte order
coincides with code-point order). -/
def charCompare (a b : Char) : Ordering := compare a.toNat b.toNat

/-- Lexicographic comparison of character lists (Rust `str::cmp`). -/
def charsCompare : List Char → List Char → Ordering
  | [], [] => .eq
  | [], _ :: _ => .lt
  | _ :: _, [] => .gt
  | a :: as, b :: bs => (charCompare a b).then (charsCompare as bs)

/-- Rust `str::cmp` on the modelled strings. -/
def strCompare (a b : String) : Ordering := charsCompare a.data b.data

/-- Numeric value of a list of decimal digits. -/
def digitsToNat (l : List Char) : Nat :=
  l.foldl (fun n c => 10 * n + (c.toNat - '0'.toNat)) 0

/-- Modelled from the spec: `util::NumericPrefixWithSuffix::from_numeric_prefixed_str`
is part of the repository's `util` crate, which is not among the sources here.
Per the spec, a name is split into a leading numeric prefix (if any) and the
remaining suffix; a name with no leading digit run has no such key. -/
def fromNumericPrefixedStr (s : String) : Option (Nat × String) :=
  let digits := s.data.takeWhile Char.isDigit
  if digits.isEmpty then none
  else some (digitsToNat digits, ⟨s.data.drop digits.length⟩)

/-- Lexicographic comparison of (numeric prefix, suffix) pairs: compare
numerically first, then by the suffix (the derived `Ord` of the pair struct). -/
def numSuffixCompare (a b : Nat × String) : Ordering :=
  (compare a.1 b.1).then (strCompare a.2 b.2)

/-- Rust `Option::cmp` (`None < Some`) over the numeric-prefix keys. -/
def optCompare : Option (Nat × String) → Option (Nat × String) → Ordering
  | none, none => .eq
  | none, some _ => .lt
  | some _, none => .gt
  | some a, some b => numSuffixCompare a b

/-- The composite comparator `list_tasks` sorts by:
`usages_b.cmp(usages_a).reverse()` (ascending LRU score), then
`kind_b.worktree().is_some().cmp(&kind_a.worktree().is_some())` (worktree-scoped
first), then the numeric-prefix keys of the names, then the raw names. -/
def pairCmp (a b : (TaskSourceKind × Task) × Nat) : Ordering :=
  (((compare b.2 a.2).swap).then
      (boolCompare (b.1.1.worktree).isSome (a.1.1.worktree).isSome)).then
    ((optCompare (fromNumericPrefixedStr a.1.2.name) (fromNumericPrefixedStr b.1.2.name)).then
      (strCompare a.1.2.name b.1.2.name))

/-- The non-strict order induced by a comparator: "does not compare greater". -/
def cmpLE (c : α → α → Ordering) (x y : α) : Prop := ¬ c x y = .gt

instance (c : α → α → Ordering) : DecidableRel (cmpLE c) :=
  fun x y => inferInstanceAs (Decidable (¬ c x y = .gt))

/-- `Inventory::list_tasks`: filter the sources by worktree, fan out, attach
LRU scores, sort by the composite comparator, drop the scores.  The original
sorts with `itertools::sorted_unstable_by`; any comparator-respecting sorted
permutation realises it, and it is modelled here with an insertion sort (tie
order among entries equal under the *full* comparator is unspecified in the
original).  Returns the pairs together with the inventory afterwards (source
states updated by the fan-out). -/
def Inventory.list_tasks (inv : Inventory) (path : Option AbsolutePath)
    (worktree : Option WorktreeId) (lru : Bool) :
    List (TaskSourceKind × Task) × Inventory :=
  let usage := inv.usageData lru
  let fanned := fanOut worktree path inv.sources
  let scored := fanned.1.map fun task => (task, scoreFrom usage lru task.2.id)
  let sorted := List.insertionSort (cmpLE pairCmp) scored
  (sorted.map fun e => e.1, { inv with sources := fanned.2 })

/-- `Inventory::last_scheduled_task`: resolve the back of the history against
an unfiltered, non-LRU `list_tasks` call, taking the first task with a
matching id.  Threads the inventory (source states) like the original's `cx`. -/
def Inventory.last_scheduled_task (inv : Inventory) : Option Task × Inventory :=
  match inv.last_scheduled_tasks.getLast? with
  | none => (none, inv)
  | some id =>
    let r := inv.list_tasks none none false
    ((r.1.find? fun kt => kt.2.id == id).map fun kt => kt.2, r.2)

/-- The registry operations, for stating whole-trace invariants. -/
inductive Op where
  | addStaticSource (kind : TaskSourceKind) (create : Unit → TaskSource) : Op
  | removeLocalStaticSource (abs_path : AbsolutePath) : Op
  | removeWorktreeSources (worktree : WorktreeId) : Op
  | taskScheduled (id : TaskId) : Op
  | listTasks (path : Option AbsolutePath) (worktree : Option WorktreeId) (lru : Bool) : Op
  | lastScheduledTask : Op

/-- One registry operation: the inventory afterwards and whether the operation
itself emitted a "registry changed" notification (`cx.notify()`). -/
def step (inv : Inventory) : Op → Inventory × Bool
  | .addStaticSource kind create =>
    let r := inv.add_static_source kind create
    (r.inventory, r.notified)
  | .removeLocalStaticSource abs_path => (inv.remove_local_static_source abs_path, false)
  | .removeWorktreeSources worktree => (inv.remove_worktree_sources worktree, false)
  | .taskScheduled id => (inv.task_scheduled id, false)
  | .listTasks path worktree lru => ((inv.list_tasks path worktree lru).2, false)
  | .lastScheduledTask => ((inv.last_scheduled_task).2, false)

/-- Run a sequence of operations from the freshly constructed inventory. -/
def run (ops : List Op) : Inventory :=
  ops.foldl (fun inv op => (step inv op).1) Inventory.new

example : (Inventory.new.task_scheduled "a").last_scheduled_tasks = ["a"] := rfl

example :
    boolCompare true false = .gt ∧ (compare 2 10).then .gt = .lt := by decide

example : fromNumericPrefixedStr "10_x" = some (10, "_x") := by decide

example : fromNumericPrefixedStr "task" = none := by decide

/-! ## A small comparator-lawfulness kit

`list_tasks` sorts by an `Ordering`-valued comparator built by lexicographic
(`Ordering.then`) composition.  To apply the generic sorting lemmas we show
the composite comparator induces a total preorder. -/

/-- A lawful comparator: swapping arguments swaps the verdict, and the induced
non-strict order (`¬ · = .gt`) is transitive. -/
structure LawfulC (c : α → α → Ordering) : Prop where
  sym : ∀ x y, c x y = (c y x).swap
  le_trans : ∀ x y z, ¬ c x y = .gt → ¬ c y z = .gt → ¬ c x z = .gt

theorem thenSwap (a b : Ordering) : (a.then b).swap = a.swap.then b.swap := by
  cases a <;> rfl

theorem thenNeGt (a b : Ordering) :
    ¬ a.then b = .gt ↔ a = .lt ∨ (a = .eq ∧ ¬ b = .gt) := by
  cases a <;> simp [Ordering.then]

theorem thenEqLt (a b : Ordering) :
    a.then b = .lt ↔ a = .lt ∨ (a = .eq ∧ b = .lt) := by
  cases a <;> simp [Ordering.then]

theorem swap_eq_gt (a : Ordering) : a.swap = .gt ↔ a = .lt := by cases a <;> simp [Ordering.swap]

theorem swap_eq_lt (a : Ordering) : a.swap = .lt ↔ a = .gt := by cases a <;> simp [Ordering.swap]

theorem swap_eq_eq (a : Ordering) : a.swap = .eq ↔ a = .eq := by cases a <;> simp [Ordering.swap]

theorem LawfulC.lt_of_lt_of_le {c : α → α → Ordering} (h : LawfulC c) {x y z : α}
    (hxy : c x y = .lt) (hyz : ¬ c y z = .gt) : c x z = .lt := by
  by_contra hne
  have hzx : ¬ c z x = .gt := by
    rw [h.sym z x]
    intro hs
    exact hne ((swap_eq_gt _).1 hs)
  have : ¬ c y x = .gt := h.le_trans y z x hyz hzx
  apply this
  rw [h.sym y x, hxy]
  rfl

theorem LawfulC.lt_of_le_of_lt {c : α → α → Ordering} (h : LawfulC c) {x y z : α}
    (hxy : ¬ c x y = .gt) (hyz : c y z = .lt) : c x z = .lt := by
  by_contra hne
  have hzx : ¬ c z x = .gt := by
    rw [h.sym z x]
    intro hs
    exact hne ((swap_eq_gt _).1 hs)
  have : ¬ c z y = .gt := h.le_trans z x y hzx hxy
  apply this
  rw [h.sym z y, hyz]
  rfl

theorem LawfulC.eq_trans {c : α → α → Ordering} (h : LawfulC c) {x y z : α}
    (hxy : c x y = .eq) (hyz : c y z = .eq) : c x z = .eq := by
  have hyx : c y x = .eq := by rw [h.sym y x, hxy]; rfl
  have hzy : c z y = .eq := by rw [h.sym z y, hyz]; rfl
  rcases hlt : c x z with _ | _ | _
  · exfalso
    have := h.lt_of_lt_of_le hlt (by rw [hzy]; intro hc; cases hc)
    rw [hxy] at this; cases this
  · rfl
  · exfalso
    have hzx : c z x = .lt := by
      rw [h.sym z x, hlt]; rfl
    have := h.lt_of_lt_of_le hzx (by rw [hxy]; intro hc; cases hc)
    rw [hzy] at this; cases this

/-- Lexicographic composition of lawful comparators is lawful. -/
theorem LawfulC.thenC {c₁ c₂ : α → α → Ordering} (h₁ : LawfulC c₁) (h₂ : LawfulC c₂) :
    LawfulC (fun x y => (c₁ x y).then (c₂ x y)) := by
  constructor
  · intro x y
    rw [h₁.sym x y, h₂.sym x y, thenSwap]
  · intro x y z hxy hyz
    rw [thenNeGt] at hxy hyz ⊢
    rcases hxy with hxy | ⟨hxy, hxy2⟩
    · rcases hyz with hyz | ⟨hyz, _⟩
      · exact Or.inl (h₁.lt_of_lt_of_le hxy (by rw [hyz]; intro hc; cases hc))
      · exact Or.inl (h₁.lt_of_lt_of_le hxy (by rw [hyz]; intro hc; cases hc))
    · rcases hyz with hyz | ⟨hyz, hyz2⟩
      · exact Or.inl (h₁.lt_of_le_of_lt (by rw [hxy]; intro hc; cases hc) hyz)
      · exact Or.inr ⟨h₁.eq_trans hxy hyz, h₂.le_trans x y z hxy2 hyz2⟩

/-- A comparator pulled back along a key function stays lawful. -/
theorem LawfulC.comap {c : α → α → Ordering} (h : LawfulC c) (f : β → α) :
    LawfulC (fun x y => c (f x) (f y)) :=
  ⟨fun x y => h.sym (f x) (f y), fun x y z => h.le_trans (f x) (f y) (f z)⟩

/-- A comparator evaluated with flipped arguments stays lawful. -/
theorem LawfulC.flipC {c : α → α → Ordering} (h : LawfulC c) :
    LawfulC (fun x y => c y x) :=
  ⟨fun x y => h.sym y x, fun x y z hxy hyz => h.le_trans z y x hyz hxy⟩

/-- A comparator evaluated with swapped arguments and a swapped verdict
(Rust's `b.cmp(&a).reverse()`) stays lawful. -/
theorem LawfulC.swapC {c : α → α → Ordering} (h : LawfulC c) :
    LawfulC (fun x y => (c y x).swap) := by
  have key : ∀ a b : α, (¬ (c b a).swap = Ordering.gt) ↔ ¬ c a b = Ordering.gt := fun a b => by
    rw [h.sym a b]
  constructor
  · intro x y
    rw [Ordering.swap_swap]
    exact (h.sym x y).symm
  · intro x y z hxy hyz
    exact (key x z).2 (h.le_trans x y z ((key x y).1 hxy) ((key y z).1 hyz))

theorem natCompareLawful : LawfulC (fun a b : Nat => compare a b) := by
  constructor
  · intro x y
    rw [Nat.compare_swap]
  · intro x y z hxy hyz
    rw [Nat.compare_eq_gt] at hxy hyz ⊢
    omega

theorem boolCompareLawful : LawfulC boolCompare := by
  constructor
  · intro x y; cases x <;> cases y <;> rfl
  · intro x y z; cases x <;> cases y <;> cases z <;> decide

theorem charCompareLawful : LawfulC charCompare :=
  natCompareLawful.comap Char.toNat

theorem charCompare_lt_iff (a b : Char) : charCompare a b = .lt ↔ a.toNat < b.toNat :=
  Nat.compare_eq_lt

theorem charCompare_eq_iff (a b : Char) : charCompare a b = .eq ↔ a.toNat = b.toNat :=
  Nat.compare_eq_eq

theorem charsCompare_sym : ∀ xs ys, charsCompare xs ys = (charsCompare ys xs).swap
  | [], [] => rfl
  | [], _ :: _ => rfl
  | _ :: _, [] => rfl
  | a :: as, b :: bs => by
    show (charCompare a b).then (charsCompare as bs) =
      ((charCompare b a).then (charsCompare bs as)).swap
    rw [thenSwap, ← charCompareLawful.sym a b, ← charsCompare_sym as bs]

theorem charsCompare_le_trans :
    ∀ xs ys zs, ¬ charsCompare xs ys = .gt → ¬ charsCompare ys zs = .gt →
      ¬ charsCompare xs zs = .gt
  | [], ys, zs, _, _ => by cases zs <;> intro hc <;> cases hc
  | _ :: _, [], _, hxy, _ => by cases hxy rfl
  | _ :: _, _ :: _, [], _, hyz => by cases hyz rfl
  | a :: as, b :: bs, c :: cs, hxy, hyz => by
    rw [show charsCompare (a :: as) (b :: bs) = (charCompare a b).then (charsCompare as bs)
      from rfl] at hxy
    rw [show charsCompare (b :: bs) (c :: cs) = (charCompare b c).then (charsCompare bs cs)
      from rfl] at hyz
    rw [show charsCompare (a :: as) (c :: cs) = (charCompare a c).then (charsCompare as cs)
      from rfl]
    rw [thenNeGt] at hxy hyz ⊢
    rcases hxy with hxy | ⟨hxy, hxy2⟩
    · rcases hyz with hyz | ⟨hyz, _⟩
      · exact Or.inl (charCompareLawful.lt_of_lt_of_le hxy (by rw [hyz]; intro hc; cases hc))
      · exact Or.inl (charCompareLawful.lt_of_lt_of_le hxy (by rw [hyz]; intro hc; cases hc))
    · rcases hyz with hyz | ⟨hyz, hyz2⟩
      · exact Or.inl (charCompareLawful.lt_of_le_of_lt (by rw [hxy]; intro hc; cases hc) hyz)
      · exact Or.inr ⟨charCompareLawful.eq_trans hxy hyz,
          charsCompare_le_trans as bs cs hxy2 hyz2⟩

theorem charsCompareLawful : LawfulC charsCompare :=
  ⟨charsCompare_sym, charsCompare_le_trans⟩

theorem strCompareLawful : LawfulC strCompare :=
  charsCompareLawful.comap String.data

theorem numSuffixCompareLawful : LawfulC numSuffixCompare :=
  (natCompareLawful.comap Prod.fst).thenC (strCompareLawful.comap Prod.snd)

theorem optCompareLawful : LawfulC optCompare := by
  constructor
  · intro x y
    cases x <;> cases y <;> first
      | rfl
      | exact numSuffixCompareLawful.sym _ _
  · intro x y z hxy hyz
    cases x with
    | none =>
      cases z with
      | none => simp [optCompare]
      | some c' => simp [optCompare]
    | some a =>
      cases y with
      | none => exact absurd rfl hxy
      | some b =>
        cases z with
        | none => exact absurd rfl hyz
        | some c' => exact numSuffixCompareLawful.le_trans a b c' hxy hyz

theorem pairCmpLawful : LawfulC pairCmp :=
  ((natCompareLawful.comap (fun e : (TaskSourceKind × Task) × Nat => e.2)).swapC.thenC
      ((boolCompareLawful.comap
        (fun e : (TaskSourceKind × Task) × Nat => (e.1.1.worktree).isSome)).flipC)).thenC
    ((optCompareLawful.comap
        (fun e : (TaskSourceKind × Task) × Nat => fromNumericPrefixedStr e.1.2.name)).thenC
      (strCompareLawful.comap (fun e : (TaskSourceKind × Task) × Nat => e.1.2.name)))

theorem cmpLE_total {c : α → α → Ordering} (h : LawfulC c) (x y : α) :
    cmpLE c x y ∨ cmpLE c y x := by
  by_cases hxy : c x y = .gt
  · right
    intro hc
    rw [h.sym y x, hxy] at hc
    cases hc
  · exact Or.inl hxy

/-! ## Structural lemmas about `list_tasks` -/

/-- Everything a registration exposes except the source's internal state:
kind, type tag, and the source's transition function (in the original these
are exactly the `SourceInInventory` fields, the state living in the reactive
context behind the `Model` handle). -/
def regView (s : SourceInInventory) :
    TaskSourceKind × Nat × (SourceState → Option AbsolutePath → List Task × SourceState) × Nat :=
  (s.kind, s.type_id, s.source.tasksForPath, s.source.type_id)

/-- The `(kind, task)` pairs a single registration contributes when queried. -/
def sourceTasks (path : Option AbsolutePath) (s : SourceInInventory) :
    List (TaskSourceKind × Task) :=
  (s.source.tasksForPath s.source.state path).1.map fun t => (s.kind, t)

theorem fanOut_regView (wt : Option WorktreeId) (p : Option AbsolutePath) :
    ∀ ss : List SourceInInventory, ((fanOut wt p ss).2).map regView = ss.map regView := by
  intro ss
  induction ss with
  | nil => rfl
  | cons s rest ih =>
    by_cases hp : participates wt s = true
    · simp [fanOut, hp, regView, ih]
    · simp [fanOut, hp, ih]

theorem fanOut_fst (wt : Option WorktreeId) (p : Option AbsolutePath) :
    ∀ ss : List SourceInInventory,
      (fanOut wt p ss).1 = (ss.filter (participates wt)).flatMap (sourceTasks p) := by
  intro ss
  induction ss with
  | nil => rfl
  | cons s rest ih =>
    by_cases hp : participates wt s = true
    · simp [fanOut, hp, List.filter_cons, sourceTasks, ih]
    · simp [fanOut, hp, List.filter_cons, ih]

theorem list_tasks_fst (inv : Inventory) (p : Option AbsolutePath) (wt : Option WorktreeId)
    (lru : Bool) :
    (inv.list_tasks p wt lru).1 =
      (List.insertionSort (cmpLE pairCmp)
        (((fanOut wt p inv.sources).1).map fun t => (t, inv.scoreOf lru t.2.id))).map
        (fun e => e.1) := rfl

theorem list_tasks_snd (inv : Inventory) (p : Option AbsolutePath) (wt : Option WorktreeId)
    (lru : Bool) :
    (inv.list_tasks p wt lru).2 = { inv with sources := (fanOut wt p inv.sources).2 } := rfl

/-- The listing is a permutation of the concatenated contributions of exactly
the participating sources. -/
theorem list_tasks_perm (inv : Inventory) (p : Option AbsolutePath) (wt : Option WorktreeId)
    (lru : Bool) :
    ((inv.list_tasks p wt lru).1).Perm
      ((inv.sources.filter (participates wt)).flatMap (sourceTasks p)) := by
  rw [list_tasks_fst, ← fanOut_fst wt p inv.sources]
  have h1 := List.perm_insertionSort (cmpLE pairCmp)
    (((fanOut wt p inv.sources).1).map fun t => (t, inv.scoreOf lru t.2.id))
  have h2 := h1.map fun e : (TaskSourceKind × Task) × Nat => e.1
  rw [List.map_map,
    show ((fun e : (TaskSourceKind × Task) × Nat => e.1) ∘
        fun t : TaskSourceKind × Task => (t, inv.scoreOf lru t.2.id)) = id from rfl,
    List.map_id] at h2
  exact h2

/-! ## The composite sort key, stated as the spec describes it -/

theorem thenEqEq (a b : Ordering) : a.then b = .eq ↔ a = .eq ∧ b = .eq := by
  cases a <;> simp [Ordering.then]

theorem boolCompare_eq_lt (x y : Bool) : boolCompare x y = .lt ↔ x = false ∧ y = true := by
  cases x <;> cases y <;> simp [boolCompare]

theorem boolCompare_eq_eq (x y : Bool) : boolCompare x y = .eq ↔ x = y := by
  cases x <;> cases y <;> simp [boolCompare]

/-- Numeric-prefix-aware name ordering, non-strict: the numeric-prefix keys
compared first, the raw strings as final tiebreak, must not compare greater. -/
def nameKeyLE (na nb : String) : Prop :=
  ¬ ((optCompare (fromNumericPrefixedStr na) (fromNumericPrefixedStr nb)).then
      (strCompare na nb)) = .gt

/-- Non-strict composite-key comparison on (score, worktree-scopedness, name):
lower LRU score first; at equal score, a Worktree-scoped origin strictly
before a non-scoped one; at equal scopedness, names in numeric-prefix-aware
order. -/
def rankedKeyLE (sa sb : Nat) (wa wb : Bool) (na nb : String) : Prop :=
  sa < sb ∨ (sa = sb ∧ ((wa = true ∧ wb = false) ∨ (wa = wb ∧ nameKeyLE na nb)))

theorem cmpLE_pairCmp_iff (a b : (TaskSourceKind × Task) × Nat) :
    cmpLE pairCmp a b ↔
      rankedKeyLE a.2 b.2 (a.1.1.worktree).isSome (b.1.1.worktree).isSome
        a.1.2.name b.1.2.name := by
  unfold cmpLE pairCmp rankedKeyLE
  rw [thenNeGt, thenEqLt, thenEqEq]
  simp only [swap_eq_lt, swap_eq_eq, Nat.compare_eq_gt, Nat.compare_eq_eq,
    boolCompare_eq_lt, boolCompare_eq_eq]
  constructor
  · rintro ((h | ⟨h1, h2, h3⟩) | ⟨⟨h1, h2⟩, h3⟩)
    · exact Or.inl h
    · exact Or.inr ⟨h1.symm, Or.inl ⟨h3, h2⟩⟩
    · exact Or.inr ⟨h1.symm, Or.inr ⟨h2.symm, h3⟩⟩
  · rintro (h | ⟨h1, ⟨h2, h3⟩ | ⟨h2, h3⟩⟩)
    · exact Or.inl (Or.inl h)
    · exact Or.inl (Or.inr ⟨h1.symm, h3, h2⟩)
    · exact Or.inr ⟨⟨h1.symm, h2.symm⟩, h3⟩

/-- The order the spec promises for the returned pairs: ascending by
(recency rank recomputed from the history, worktree-scopedness, name). -/
def compositeLE (inv : Inventory) (lru : Bool) (a b : TaskSourceKind × Task) : Prop :=
  rankedKeyLE (inv.scoreOf lru a.2.id) (inv.scoreOf lru b.2.id)
    (a.1.worktree).isSome (b.1.worktree).isSome a.2.name b.2.name

/-- Every `list_tasks` result is pairwise ascending under the composite key. -/
theorem list_tasks_pairwise (inv : Inventory) (p : Option AbsolutePath)
    (wt : Option WorktreeId) (lru : Bool) :
    ((inv.list_tasks p wt lru).1).Pairwise (compositeLE inv lru) := by
  rw [list_tasks_fst, List.pairwise_map]
  have tot : IsTotal ((TaskSourceKind × Task) × Nat) (cmpLE pairCmp) :=
    ⟨cmpLE_total pairCmpLawful⟩
  have tra : IsTrans ((TaskSourceKind × Task) × Nat) (cmpLE pairCmp) :=
    ⟨pairCmpLawful.le_trans⟩
  have hs := @List.sorted_insertionSort _ (cmpLE pairCmp) _ tot tra
    (((fanOut wt p inv.sources).1).map fun t => (t, inv.scoreOf lru t.2.id))
  refine hs.imp_of_mem ?_
  intro x y hx hy hr
  have hxs : x.2 = inv.scoreOf lru x.1.2.id := by
    have hm := (List.mem_insertionSort (cmpLE pairCmp)).1 hx
    rcases List.mem_map.1 hm with ⟨t, _, rfl⟩
    rfl
  have hys : y.2 = inv.scoreOf lru y.1.2.id := by
    have hm := (List.mem_insertionSort (cmpLE pairCmp)).1 hy
    rcases List.mem_map.1 hm with ⟨t, _, rfl⟩
    rfl
  rw [cmpLE_pairCmp_iff, hxs, hys] at hr
  exact hr

/-! ## Concrete example inventories -/

/-- Three tasks with numeric-prefixed names, in scrambled registration order. -/
def exTasksA : List Task := [⟨"id2", "2_task"⟩, ⟨"id10", "10_task"⟩, ⟨"id1a", "1_a_task"⟩]

/-- A source that always returns `exTasksA` without changing its state. -/
def exSourceA : TaskSource := ⟨0, fun st _ => (exTasksA, st), 7⟩

/-- An inventory holding one `UserInput` source with the three tasks above. -/
def exInvA : Inventory := ⟨[⟨exSourceA, 7, .UserInput⟩], []⟩

/-- C1: every `list_tasks` result is ordered ascending by the composite key
(recency rank, then Worktree-scoped origin first, then numeric-prefix-aware
name order with the raw string as final tiebreak); in particular a
non-recency listing of tasks named "2_task", "10_task", "1_a_task" returns
them as 1_a_task, 2_task, 10_task. -/
theorem c1_list_tasks_sorted_by_composite_key :
    (∀ (inv : Inventory) (path : Option AbsolutePath) (wt : Option WorktreeId) (lru : Bool),
      ((inv.list_tasks path wt lru).1).Pairwise (compositeLE inv lru)) ∧
    (exInvA.list_tasks none none false).1.map (fun kt => kt.2.name) =
      ["1_a_task", "2_task", "10_task"] :=
  ⟨list_tasks_pairwise, by decide⟩

/-! ## Characterising the LRU rank computation -/

/-- The distinct elements of a list in order of first occurrence, skipping
those already seen. -/
def keepFirsts (seen : List TaskId) : List TaskId → List TaskId
  | [] => []
  | x :: xs => if x ∈ seen then keepFirsts seen xs else x :: keepFirsts (x :: seen) xs

/-- Position of the first occurrence of `id`, if present. -/
def posIn (id : TaskId) : List TaskId → Option Nat
  | [] => none
  | x :: xs => if x = id then some 0 else (posIn id xs).map (· + 1)

/-- Pair each element with consecutive integers starting at `n`. -/
def numberFrom (n : Nat) : List TaskId → List (TaskId × Nat)
  | [] => []
  | x :: xs => (x, n) :: numberFrom (n + 1) xs

theorem keepFirsts_congr :
    ∀ (l s₁ s₂ : List TaskId), (∀ a, a ∈ s₁ ↔ a ∈ s₂) →
      keepFirsts s₁ l = keepFirsts s₂ l := by
  intro l
  induction l with
  | nil => intro _ _ _; rfl
  | cons x xs ih =>
    intro s₁ s₂ hequiv
    by_cases hx : x ∈ s₁
    · rw [keepFirsts, keepFirsts, if_pos hx, if_pos ((hequiv x).1 hx)]
      exact ih s₁ s₂ hequiv
    · rw [keepFirsts, keepFirsts, if_neg hx, if_neg (fun hc => hx ((hequiv x).2 hc))]
      refine congrArg _ (ih _ _ ?_)
      intro a
      simp only [List.mem_cons]
      exact or_congr Iff.rfl (hequiv a)

theorem keepFirsts_mem :
    ∀ (l seen : List TaskId) (x : TaskId),
      x ∈ keepFirsts seen l ↔ (x ∈ l ∧ x ∉ seen) := by
  intro l
  induction l with
  | nil => intro seen x; simp [keepFirsts]
  | cons y ys ih =>
    intro seen x
    by_cases hy : y ∈ seen
    · rw [keepFirsts, if_pos hy, ih]
      simp only [List.mem_cons]
      constructor
      · rintro ⟨hx, hns⟩
        exact ⟨Or.inr hx, hns⟩
      · rintro ⟨rfl | hx, hns⟩
        · exact absurd hy hns
        · exact ⟨hx, hns⟩
    · rw [keepFirsts, if_neg hy]
      simp only [List.mem_cons, ih, List.mem_cons]
      constructor
      · rintro (rfl | ⟨hx, hns⟩)
        · exact ⟨Or.inl rfl, hy⟩
        · exact ⟨Or.inr hx, fun hc => hns (Or.inr hc)⟩
      · rintro ⟨rfl | hx, hns⟩
        · exact Or.inl rfl
        · by_cases hxy : x = y
          · exact Or.inl hxy
          · exact Or.inr ⟨hx, fun hc => hc.elim (fun h => hxy h) hns⟩

theorem keepFirsts_nodup : ∀ (l seen : List TaskId), (keepFirsts seen l).Nodup := by
  intro l
  induction l with
  | nil => intro _; exact List.nodup_nil
  | cons x xs ih =>
    intro seen
    by_cases hx : x ∈ seen
    · rw [keepFirsts, if_pos hx]
      exact ih seen
    · rw [keepFirsts, if_neg hx]
      refine List.nodup_cons.2 ⟨?_, ih (x :: seen)⟩
      intro hc
      exact ((keepFirsts_mem xs (x :: seen) x).1 hc).2 (List.mem_cons_self x seen)

theorem buildRanks_spec :
    ∀ (l : List TaskId) (acc : List (TaskId × Nat)) (n : Nat),
      buildRanks l acc n =
        (acc ++ numberFrom n (keepFirsts (acc.map Prod.fst) l),
          n + (keepFirsts (acc.map Prod.fst) l).length) := by
  intro l
  induction l with
  | nil => intro acc n; simp [buildRanks, keepFirsts, numberFrom]
  | cons id rest ih =>
    intro acc n
    by_cases hin : id ∈ acc.map Prod.fst
    · have hany : (acc.any fun p => p.1 == id) = true := by
        rcases List.mem_map.1 hin with ⟨p, hp, hfst⟩
        exact List.any_eq_true.2 ⟨p, hp, by simp [hfst]⟩
      rw [buildRanks, if_pos hany, keepFirsts, if_pos hin]
      exact ih acc n
    · have hany : ¬ (acc.any fun p => p.1 == id) = true := by
        intro hc
        rcases List.any_eq_true.1 hc with ⟨p, hp, hbeq⟩
        exact hin (List.mem_map.2 ⟨p, hp, by simpa using hbeq⟩)
      rw [buildRanks, if_neg hany, keepFirsts, if_neg hin, ih]
      have hmap : (acc ++ [(id, n)]).map Prod.fst = acc.map Prod.fst ++ [id] := by
        simp
      rw [hmap, keepFirsts_congr rest (acc.map Prod.fst ++ [id]) (id :: acc.map Prod.fst)
        (fun a => by simp [List.mem_append, List.mem_cons, or_comm])]
      rw [numberFrom]
      simp only [Prod.mk.injEq]
      constructor
      · simp
      · simp only [List.length_cons]
        omega

theorem lookup_numberFrom :
    ∀ (ks : List TaskId) (n : Nat) (id : TaskId),
      lookupRank (numberFrom n ks) id = (posIn id ks).map (n + ·) := by
  intro ks
  induction ks with
  | nil => intro n id; rfl
  | cons x xs ih =>
    intro n id
    by_cases hx : x = id
    · simp [lookupRank, numberFrom, posIn, List.find?_cons, hx]
    · rw [numberFrom, posIn, if_neg hx]
      have : lookupRank ((x, n) :: numberFrom (n + 1) xs) id =
          lookupRank (numberFrom (n + 1) xs) id := by
        simp [lookupRank, List.find?_cons, hx]
      rw [this, ih]
      cases posIn id xs with
      | none => rfl
      | some k => simp [Option.map_some]; omega

theorem posIn_eq_none :
    ∀ (ks : List TaskId) (id : TaskId), posIn id ks = none ↔ id ∉ ks := by
  intro ks
  induction ks with
  | nil => intro id; simp [posIn]
  | cons x xs ih =>
    intro id
    by_cases hx : x = id
    · simp [posIn, hx]
    · rw [posIn, if_neg hx, List.mem_cons]
      cases h : posIn id xs with
      | none =>
        simp only [Option.map_none']
        simp [Ne.symm hx, (ih id).1 h]
      | some k =>
        simp only [Option.map_some']
        constructor
        · intro hc; cases hc
        · intro hc
          exfalso
          apply hc
          right
          by_contra hnm
          rw [(ih id).2 hnm] at h
          cases h

theorem posIn_lt_length :
    ∀ (ks : List TaskId) (id : TaskId) (k : Nat), posIn id ks = some k → k < ks.length := by
  intro ks
  induction ks with
  | nil => intro id k h; cases h
  | cons x xs ih =>
    intro id k h
    by_cases hx : x = id
    · rw [posIn, if_pos hx] at h
      cases h
      simp
    · rw [posIn, if_neg hx] at h
      cases hp : posIn id xs with
      | none => rw [hp] at h; cases h
      | some j =>
        rw [hp, Option.map_some'] at h
        cases h
        have := ih id j hp
        simp only [List.length_cons]
        omega

/-- `scoreOf` with recency on: the task's position in the list of distinct
identifiers in order of first occurrence along the reverse walk of the
history, or one past that list's length if never seen. -/
theorem scoreOf_true_eq (inv : Inventory) (id : TaskId) :
    inv.scoreOf true id =
      (posIn id (keepFirsts [] inv.last_scheduled_tasks.reverse)).getD
        (keepFirsts [] inv.last_scheduled_tasks.reverse).length := by
  show scoreFrom (inv.usageData true) true id = _
  rw [Inventory.usageData, if_pos rfl, buildRanks_spec]
  show (lookupRank ([] ++ numberFrom 0 (keepFirsts (List.map Prod.fst []) _)) id).getD _ = _
  rw [List.nil_append, lookup_numberFrom]
  have hzero : ∀ o : Option Nat, (o.map (0 + ·)).getD
      (0 + (keepFirsts [] inv.last_scheduled_tasks.reverse).length) =
      o.getD (keepFirsts [] inv.last_scheduled_tasks.reverse).length := by
    intro o
    cases o <;> simp
  exact hzero _

/-- An inventory with a repeated identifier in its usage history. -/
def exInvB : Inventory := ⟨[], ["a", "b", "a"]⟩

/-- C2: with recency on, the rank of an identifier is its position among the
distinct identifiers in order of first encounter along the walk of the usage
history from most recent to least recent (repeats ignored); those positions
are exactly `0, 1, …, d-1` (`keepFirsts` is duplicate-free, and every seen
identifier ranks below `d`); every identifier never seen in the history gets
rank `d`, one past the maximum assigned rank; with recency off every task
gets one common rank (`0`, one past the maximum of the zero assigned ranks),
so the usage history has no effect on the non-recency listing. -/
theorem c2_recency_ranks :
    (∀ (inv : Inventory) (id : TaskId),
      inv.scoreOf true id =
        (posIn id (keepFirsts [] inv.last_scheduled_tasks.reverse)).getD
          (keepFirsts [] inv.last_scheduled_tasks.reverse).length) ∧
    (∀ inv : Inventory, (keepFirsts [] inv.last_scheduled_tasks.reverse).Nodup) ∧
    (∀ (inv : Inventory) (id : TaskId),
      id ∈ keepFirsts [] inv.last_scheduled_tasks.reverse ↔
        id ∈ inv.last_scheduled_tasks) ∧
    (∀ (inv : Inventory) (id : TaskId), id ∈ inv.last_scheduled_tasks →
      inv.scoreOf true id < (keepFirsts [] inv.last_scheduled_tasks.reverse).length) ∧
    (∀ (inv : Inventory) (id : TaskId), id ∉ inv.last_scheduled_tasks →
      inv.scoreOf true id = (keepFirsts [] inv.last_scheduled_tasks.reverse).length) ∧
    (∀ (inv : Inventory) (id : TaskId), inv.scoreOf false id = 0) ∧
    (∀ (sources : List SourceInInventory) (h h' : List TaskId) (p : Option AbsolutePath)
      (w : Option WorktreeId),
      ((Inventory.mk sources h).list_tasks p w false).1 =
        ((Inventory.mk sources h').list_tasks p w false).1) := by
  have hmem : ∀ (inv : Inventory) (id : TaskId),
      id ∈ keepFirsts [] inv.last_scheduled_tasks.reverse ↔
        id ∈ inv.last_scheduled_tasks := by
    intro inv id
    rw [keepFirsts_mem]
    simp
  refine ⟨scoreOf_true_eq, fun inv => keepFirsts_nodup _ [], hmem, ?_, ?_, fun _ _ => rfl,
    fun _ _ _ _ _ => rfl⟩
  · intro inv id hin
    rw [scoreOf_true_eq]
    have hk : id ∈ keepFirsts [] inv.last_scheduled_tasks.reverse := (hmem inv id).2 hin
    cases hp : posIn id (keepFirsts [] inv.last_scheduled_tasks.reverse) with
    | none => exact absurd hk ((posIn_eq_none _ id).1 hp)
    | some k =>
      rw [Option.getD_some]
      exact posIn_lt_length _ id k hp
  · intro inv id hout
    rw [scoreOf_true_eq]
    have hk : id ∉ keepFirsts [] inv.last_scheduled_tasks.reverse :=
      fun hc => hout ((hmem inv id).1 hc)
    rw [(posIn_eq_none _ id).2 hk, Option.getD_none]

/-- Witness for C2 at a concrete inventory: in history `["a", "b", "a"]` the
identifier "a" is ranked below the distinct count, and the unseen "c" is
ranked exactly at it. -/
theorem c2_recency_ranks_witness :
    ("a" ∈ exInvB.last_scheduled_tasks ∧
      exInvB.scoreOf true "a" <
        (keepFirsts [] exInvB.last_scheduled_tasks.reverse).length) ∧
    ("c" ∉ exInvB.last_scheduled_tasks ∧
      exInvB.scoreOf true "c" =
        (keepFirsts [] exInvB.last_scheduled_tasks.reverse).length) :=
  ⟨⟨by decide, c2_recency_ranks.2.2.2.1 exInvB "a" (by decide)⟩,
    ⟨by decide, c2_recency_ranks.2.2.2.2.1 exInvB "c" (by decide)⟩⟩

/-! ## Characterising `add_static_source` -/

/-- The duplicate condition of `add_static_source`: the argument kind carries
a path already carried by some registered kind. -/
def dupPath (inv : Inventory) (kind : TaskSourceKind) : Prop :=
  ∃ p, kind.abs_path = some p ∧ ∃ s ∈ inv.sources, s.kind.abs_path = some p

theorem dupPath_guard_iff (inv : Inventory) (kind : TaskSourceKind) :
    ((kind.abs_path).isSome &&
        (inv.sources.any fun s => s.kind.abs_path == kind.abs_path)) = true ↔
      dupPath inv kind := by
  rw [Bool.and_eq_true, List.any_eq_true]
  constructor
  · rintro ⟨hs, s, hmem, hbeq⟩
    rcases Option.isSome_iff_exists.1 hs with ⟨p, hp⟩
    refine ⟨p, hp, s, hmem, ?_⟩
    rw [← hp]
    exact beq_iff_eq.1 hbeq
  · rintro ⟨p, hp, s, hmem, hsp⟩
    refine ⟨by rw [hp]; rfl, s, hmem, ?_⟩
    rw [hsp, hp]
    exact beq_iff_eq.2 rfl

theorem add_static_source_dup (inv : Inventory) (kind : TaskSourceKind)
    (f : Unit → TaskSource) (h : dupPath inv kind) :
    inv.add_static_source kind f =
      { inventory := inv, factory_invoked := false, notified := false } := by
  have hg := (dupPath_guard_iff inv kind).2 h
  unfold Inventory.add_static_source
  rw [if_pos hg]

theorem add_static_source_new (inv : Inventory) (kind : TaskSourceKind)
    (f : Unit → TaskSource) (h : ¬ dupPath inv kind) :
    inv.add_static_source kind f =
      { inventory :=
          { sources :=
              inv.sources ++ [{ source := f (), type_id := (f ()).type_id, kind := kind }]
            last_scheduled_tasks := inv.last_scheduled_tasks }
        factory_invoked := true
        notified := true } := by
  have hg : ¬ ((kind.abs_path).isSome &&
      (inv.sources.any fun s => s.kind.abs_path == kind.abs_path)) = true :=
    fun hc => h ((dupPath_guard_iff inv kind).1 hc)
  unfold Inventory.add_static_source
  rw [if_neg hg]

/-- C3: a duplicate-path registration is a complete no-op — the factory is not
invoked, the inventory (sources and history) is unchanged, and no notification
is emitted; on the non-duplicate path the registration is appended at the end
and a notification is emitted. -/
theorem c3_duplicate_add_is_noop :
    (∀ (inv : Inventory) (kind : TaskSourceKind) (f : Unit → TaskSource),
      dupPath inv kind →
        inv.add_static_source kind f =
          { inventory := inv, factory_invoked := false, notified := false }) ∧
    (∀ (inv : Inventory) (kind : TaskSourceKind) (f : Unit → TaskSource),
      ¬ dupPath inv kind →
        inv.add_static_source kind f =
          { inventory :=
              { sources :=
                  inv.sources ++
                    [{ source := f (), type_id := (f ()).type_id, kind := kind }]
                last_scheduled_tasks := inv.last_scheduled_tasks }
            factory_invoked := true
            notified := true }) :=
  ⟨add_static_source_dup, add_static_source_new⟩

/-- A source with no tasks, used in concrete registration examples. -/
def exSourceB : TaskSource := ⟨0, fun st _ => ([], st), 3⟩

/-- An inventory with a single static source registered at path "/a". -/
def exInvC : Inventory := ⟨[⟨exSourceB, 3, .AbsPath "/a"⟩], []⟩

/-- Witness for C3: re-registering at the occupied "/a" is a no-op, while
registering at the fresh "/b" appends and notifies. -/
theorem c3_duplicate_add_is_noop_witness :
    (dupPath exInvC (.AbsPath "/a") ∧
      exInvC.add_static_source (.AbsPath "/a") (fun _ => exSourceB) =
        { inventory := exInvC, factory_invoked := false, notified := false }) ∧
    (¬ dupPath exInvC (.AbsPath "/b") ∧
      exInvC.add_static_source (.AbsPath "/b") (fun _ => exSourceB) =
        { inventory :=
            { sources :=
                exInvC.sources ++
                  [{ source := exSourceB, type_id := exSourceB.type_id
                     kind := .AbsPath "/b" }]
              last_scheduled_tasks := exInvC.last_scheduled_tasks }
          factory_invoked := true
          notified := true }) := by
  have hdup : dupPath exInvC (.AbsPath "/a") :=
    ⟨"/a", rfl, ⟨exSourceB, 3, .AbsPath "/a"⟩, List.mem_cons_self _ _, rfl⟩
  have hnew : ¬ dupPath exInvC (.AbsPath "/b") := by
    rintro ⟨p, hp, s, hmem, hsp⟩
    simp only [TaskSourceKind.abs_path, Option.some.injEq] at hp
    subst hp
    rcases List.mem_singleton.1 hmem with rfl
    simp only [TaskSourceKind.abs_path, Option.some.injEq] at hsp
    exact absurd hsp (by decide)
  exact ⟨⟨hdup, c3_duplicate_add_is_noop.1 exInvC _ _ hdup⟩,
    ⟨hnew, c3_duplicate_add_is_noop.2 exInvC _ _ hnew⟩⟩

/-! ## Notification discipline of the registry operations -/

/-- C10: the removal operations never notify; across all registry operations,
a "registry changed" notification is emitted exactly by a non-duplicate
`add_static_source`. -/
theorem c10_only_nonduplicate_add_notifies :
    (∀ (inv : Inventory) (abs_path : AbsolutePath),
      (step inv (.removeLocalStaticSource abs_path)).2 = false) ∧
    (∀ (inv : Inventory) (worktree : WorktreeId),
      (step inv (.removeWorktreeSources worktree)).2 = false) ∧
    (∀ (inv : Inventory) (op : Op),
      (step inv op).2 = true ↔
        ∃ kind create, op = .addStaticSource kind create ∧ ¬ dupPath inv kind) := by
  refine ⟨fun _ _ => rfl, fun _ _ => rfl, ?_⟩
  intro inv op
  cases op with
  | addStaticSource kind create =>
    by_cases h : dupPath inv kind
    · rw [show (step inv (.addStaticSource kind create)).2 =
          (inv.add_static_source kind create).notified from rfl,
        add_static_source_dup inv kind create h]
      constructor
      · intro hc; exact Bool.noConfusion hc
      · rintro ⟨k, c, heq, hnd⟩
        cases heq
        exact absurd h hnd
    · rw [show (step inv (.addStaticSource kind create)).2 =
          (inv.add_static_source kind create).notified from rfl,
        add_static_source_new inv kind create h]
      exact ⟨fun _ => ⟨kind, create, rfl, h⟩, fun _ => rfl⟩
  | removeLocalStaticSource p =>
    constructor
    · intro hc; exact Bool.noConfusion hc
    · rintro ⟨k, c, heq, _⟩; cases heq
  | removeWorktreeSources w =>
    constructor
    · intro hc; exact Bool.noConfusion hc
    · rintro ⟨k, c, heq, _⟩; cases heq
  | taskScheduled id =>
    constructor
    · intro hc; exact Bool.noConfusion hc
    · rintro ⟨k, c, heq, _⟩; cases heq
  | listTasks p w l =>
    constructor
    · intro hc; exact Bool.noConfusion hc
    · rintro ⟨k, c, heq, _⟩; cases heq
  | lastScheduledTask =>
    constructor
    · intro hc; exact Bool.noConfusion hc
    · rintro ⟨k, c, heq, _⟩; cases heq

/-! ## The bounded usage history -/

theorem add_static_source_history (inv : Inventory) (kind : TaskSourceKind)
    (f : Unit → TaskSource) :
    ((inv.add_static_source kind f).inventory).last_scheduled_tasks =
      inv.last_scheduled_tasks := by
  by_cases hd : dupPath inv kind
  · rw [add_static_source_dup inv kind f hd]
  · rw [add_static_source_new inv kind f hd]

theorem list_tasks_history (inv : Inventory) (p : Option AbsolutePath)
    (w : Option WorktreeId) (l : Bool) :
    ((inv.list_tasks p w l).2).last_scheduled_tasks = inv.last_scheduled_tasks := rfl

theorem last_scheduled_task_history (inv : Inventory) :
    ((inv.last_scheduled_task).2).last_scheduled_tasks = inv.last_scheduled_tasks := by
  unfold Inventory.last_scheduled_task
  cases inv.last_scheduled_tasks.getLast? <;> rfl

theorem step_history_bound (inv : Inventory) (op : Op)
    (h : inv.last_scheduled_tasks.length ≤ 5000) :
    ((step inv op).1).last_scheduled_tasks.length ≤ 5000 := by
  cases op with
  | addStaticSource kind create =>
    show ((inv.add_static_source kind create).inventory).last_scheduled_tasks.length ≤ 5000
    rw [add_static_source_history]; exact h
  | removeLocalStaticSource p => exact h
  | removeWorktreeSources w => exact h
  | taskScheduled id =>
    show ((inv.task_scheduled id)).last_scheduled_tasks.length ≤ 5000
    unfold Inventory.task_scheduled
    by_cases hc : (inv.last_scheduled_tasks ++ [id]).length > 5000
    · rw [if_pos hc]
      simp only [List.length_tail, List.length_append, List.length_cons, List.length_nil]
      omega
    · rw [if_neg hc]
      simp only [List.length_append, List.length_cons, List.length_nil] at hc ⊢
      omega
  | listTasks p w l =>
    show ((inv.list_tasks p w l).2).last_scheduled_tasks.length ≤ 5000
    rw [list_tasks_history]; exact h
  | lastScheduledTask =>
    show ((inv.last_scheduled_task).2).last_scheduled_tasks.length ≤ 5000
    rw [last_scheduled_task_history]; exact h

theorem run_history_bound : ∀ ops : List Op, ((run ops).last_scheduled_tasks).length ≤ 5000 := by
  have haux : ∀ (ops : List Op) (inv : Inventory), inv.last_scheduled_tasks.length ≤ 5000 →
      ((ops.foldl (fun i op => (step i op).1) inv).last_scheduled_tasks).length ≤ 5000 := by
    intro ops
    induction ops with
    | nil => intro inv h; exact h
    | cons op rest ih => intro inv h; exact ih _ (step_history_bound inv op h)
  intro ops
  exact haux ops Inventory.new (by decide)

/-- C4: under every operation sequence the usage history stays within 5000
entries; `task_scheduled` appends the identifier at the tail and drops exactly
the head entry when the bound would be exceeded, touching nothing else. -/
theorem c4_usage_history_bounded :
    (∀ ops : List Op, ((run ops).last_scheduled_tasks).length ≤ 5000) ∧
    (∀ (inv : Inventory) (id : TaskId),
      (inv.task_scheduled id).last_scheduled_tasks =
        (if inv.last_scheduled_tasks.length + 1 > 5000 then
          inv.last_scheduled_tasks.tail else inv.last_scheduled_tasks) ++ [id]) ∧
    (∀ (inv : Inventory) (id : TaskId), (inv.task_scheduled id).sources = inv.sources) := by
  refine ⟨run_history_bound, ?_, ?_⟩
  · intro inv id
    unfold Inventory.task_scheduled
    by_cases hc : (inv.last_scheduled_tasks ++ [id]).length > 5000
    · rw [if_pos hc]
      have hc' : inv.last_scheduled_tasks.length + 1 > 5000 := by
        simpa using hc
      rw [if_pos hc']
      show (inv.last_scheduled_tasks ++ [id]).tail = _
      cases hist : inv.last_scheduled_tasks with
      | nil => exact absurd (hist ▸ hc') (by decide)
      | cons x t => rfl
    · rw [if_neg hc]
      have hc' : ¬ inv.last_scheduled_tasks.length + 1 > 5000 := by
        simpa using hc
      rw [if_neg hc']
  · intro inv id
    show (if (inv.last_scheduled_tasks ++ [id]).length > 5000 then
        { inv with last_scheduled_tasks := (inv.last_scheduled_tasks ++ [id]).tail }
      else { inv with last_scheduled_tasks := inv.last_scheduled_tasks ++ [id] }).sources =
      inv.sources
    split <;> rfl

/-! ## Registration slots are keyed by absolute path only -/

/-- A source with no tasks, used in worktree registration examples. -/
def exSourceC : TaskSource := ⟨0, fun st _ => ([], st), 5⟩

/-- Register two Worktree sources with the same worktree id but different
absolute paths: both registrations are accepted. -/
def exInvD : Inventory :=
  ((Inventory.new.add_static_source (.Worktree 1 "/a")
      fun _ => exSourceC).inventory.add_static_source (.Worktree 1 "/b")
    fun _ => exSourceC).inventory

/-- C7 counterexample: after registering `Worktree 1 "/a"` and then
`Worktree 1 "/b"`, two sources with worktree id 1 are registered at once,
refuting "at most one registered source per distinct worktree id" — the
dedup key is the absolute path alone. -/
theorem c7_counterexample_two_sources_same_worktree_id :
    (exInvD.sources.filter fun s => s.kind.worktree == some 1).length = 2 := rfl

/-- The paths occupied by the registered path-carrying sources. -/
def pathsOf (ss : List SourceInInventory) : List AbsolutePath :=
  ss.filterMap fun s => s.kind.abs_path

theorem pathsOf_regView (ss ss' : List SourceInInventory)
    (h : ss.map regView = ss'.map regView) : pathsOf ss = pathsOf ss' := by
  have hmap : ∀ l : List SourceInInventory,
      pathsOf l = (l.map regView).filterMap fun v => v.1.abs_path := by
    intro l
    rw [List.filterMap_map]
    rfl
  rw [hmap ss, hmap ss', h]

theorem step_pathsOf_nodup (inv : Inventory) (op : Op)
    (h : (pathsOf inv.sources).Nodup) : (pathsOf ((step inv op).1).sources).Nodup := by
  cases op with
  | addStaticSource kind create =>
    show (pathsOf ((inv.add_static_source kind create).inventory).sources).Nodup
    by_cases hd : dupPath inv kind
    · rw [add_static_source_dup inv kind create hd]
      exact h
    · rw [add_static_source_new inv kind create hd]
      show (pathsOf (inv.sources ++
        [{ source := create (), type_id := (create ()).type_id, kind := kind }])).Nodup
      rw [pathsOf, List.filterMap_append]
      cases hk : kind.abs_path with
      | none =>
        rw [show List.filterMap (fun s : SourceInInventory => s.kind.abs_path)
          [{ source := create (), type_id := (create ()).type_id, kind := kind }] = []
          from by simp [List.filterMap_cons, hk]]
        simpa using h
      | some p =>
        rw [show List.filterMap (fun s : SourceInInventory => s.kind.abs_path)
          [{ source := create (), type_id := (create ()).type_id, kind := kind }] = [p]
          from by simp [List.filterMap_cons, hk]]
        refine List.Nodup.append h (List.nodup_singleton p) ?_
        intro a ha hb
        rcases List.mem_singleton.1 hb with rfl
        exact hd ⟨a, hk, by
          rcases List.mem_filterMap.1 ha with ⟨s, hs, hsp⟩
          exact ⟨s, hs, hsp⟩⟩
  | removeLocalStaticSource p =>
    exact List.Nodup.sublist ((List.filter_sublist _).filterMap _) h
  | removeWorktreeSources w =>
    exact List.Nodup.sublist ((List.filter_sublist _).filterMap _) h
  | taskScheduled id =>
    show (pathsOf (if (inv.last_scheduled_tasks ++ [id]).length > 5000 then
        { inv with last_scheduled_tasks := (inv.last_scheduled_tasks ++ [id]).tail }
      else { inv with last_scheduled_tasks := inv.last_scheduled_tasks ++ [id] }).sources).Nodup
    split <;> exact h
  | listTasks p w l =>
    show (pathsOf ((inv.list_tasks p w l).2).sources).Nodup
    rw [pathsOf_regView _ inv.sources]
    · exact h
    · rw [list_tasks_snd]
      exact fanOut_regView w p inv.sources
  | lastScheduledTask =>
    show (pathsOf ((inv.last_scheduled_task).2).sources).Nodup
    unfold Inventory.last_scheduled_task
    cases inv.last_scheduled_tasks.getLast? with
    | none => exact h
    | some id =>
      show (pathsOf ((inv.list_tasks none none false).2).sources).Nodup
      rw [pathsOf_regView _ inv.sources]
      · exact h
      · rw [list_tasks_snd]
        exact fanOut_regView none none inv.sources

/-- C7 (amended): the registry keeps at most one source per distinct absolute
path (the dedup key is the path carried by the kind, for `AbsPath` and
`Worktree` kinds alike; `UserInput` sources are unrestricted) — worktree ids
are not themselves deduplicated; and a registration at an occupied path
leaves the inventory, hence the original source's tasks, unchanged. -/
theorem c7_amended_path_slot_unique :
    (∀ ops : List Op, (pathsOf (run ops).sources).Nodup) ∧
    (∀ (inv : Inventory) (kind : TaskSourceKind) (create : Unit → TaskSource),
      dupPath inv kind → (inv.add_static_source kind create).inventory = inv) := by
  constructor
  · have haux : ∀ (ops : List Op) (inv : Inventory), (pathsOf inv.sources).Nodup →
        (pathsOf (ops.foldl (fun i op => (step i op).1) inv).sources).Nodup := by
      intro ops
      induction ops with
      | nil => intro inv h; exact h
      | cons op rest ih => intro inv h; exact ih _ (step_pathsOf_nodup inv op h)
    intro ops
    exact haux ops Inventory.new List.nodup_nil
  · intro inv kind create hd
    rw [add_static_source_dup inv kind create hd]

/-- An inventory with one Worktree source occupying path "/w". -/
def exInvE : Inventory := ⟨[⟨exSourceC, 5, .Worktree 2 "/w"⟩], []⟩

/-- Witness for the amended C7: an `AbsPath "/w"` registration against an
inventory whose Worktree source already occupies "/w" is rejected. -/
theorem c7_amended_path_slot_unique_witness :
    dupPath exInvE (.AbsPath "/w") ∧
      (exInvE.add_static_source (.AbsPath "/w") fun _ => exSourceC).inventory = exInvE := by
  have hd : dupPath exInvE (.AbsPath "/w") :=
    ⟨"/w", rfl, ⟨exSourceC, 5, .Worktree 2 "/w"⟩, List.mem_cons_self _ _, rfl⟩
  exact ⟨hd, c7_amended_path_slot_unique.2 exInvE _ _ hd⟩

/-! ## The worktree filter -/

/-- C5: the listing draws its tasks from exactly the sources passing the
worktree filter; a registration passes iff no filter was given, or its kind
carries no worktree id, or its worktree id equals the filter — in particular
a source whose kind carries no worktree id participates under any filter. -/
theorem c5_worktree_filter :
    (∀ (inv : Inventory) (p : Option AbsolutePath) (wt : Option WorktreeId) (lru : Bool),
      ((inv.list_tasks p wt lru).1).Perm
        ((inv.sources.filter (participates wt)).flatMap (sourceTasks p))) ∧
    (∀ (wt : Option WorktreeId) (s : SourceInInventory),
      participates wt s = true ↔
        (wt = none ∨ s.kind.worktree = none ∨ s.kind.worktree = wt)) ∧
    (∀ (wt : Option WorktreeId) (s : SourceInInventory),
      s.kind.worktree = none → participates wt s = true) := by
  have hiff : ∀ (wt : Option WorktreeId) (s : SourceInInventory),
      participates wt s = true ↔
        (wt = none ∨ s.kind.worktree = none ∨ s.kind.worktree = wt) := by
    intro wt s
    simp [participates, Option.isNone_iff_eq_none, or_assoc]
  refine ⟨list_tasks_perm, hiff, ?_⟩
  intro wt s hnone
  exact (hiff wt s).2 (Or.inr (Or.inl hnone))

/-- Witness for C5: a `UserInput` source participates under the filter
`some 1`. -/
theorem c5_worktree_filter_witness :
    (⟨exSourceA, 7, .UserInput⟩ : SourceInInventory).kind.worktree = none ∧
      participates (some 1) ⟨exSourceA, 7, .UserInput⟩ = true :=
  ⟨rfl, c5_worktree_filter.2.2 (some 1) ⟨exSourceA, 7, .UserInput⟩ rfl⟩

/-! ## Queries do not disturb the registry -/

theorem scoreOf_hist_congr (a b : Inventory)
    (h : a.last_scheduled_tasks = b.last_scheduled_tasks) (lru : Bool) (id : TaskId) :
    a.scoreOf lru id = b.scoreOf lru id := by
  simp [Inventory.scoreOf, Inventory.usageData, h]

theorem list_tasks_regView (inv : Inventory) (p : Option AbsolutePath)
    (wt : Option WorktreeId) (lru : Bool) :
    ((inv.list_tasks p wt lru).2).sources.map regView = inv.sources.map regView := by
  rw [list_tasks_snd]
  exact fanOut_regView wt p inv.sources

theorem last_scheduled_task_regView (inv : Inventory) :
    ((inv.last_scheduled_task).2).sources.map regView = inv.sources.map regView := by
  unfold Inventory.last_scheduled_task
  cases inv.last_scheduled_tasks.getLast? with
  | none => rfl
  | some id => exact list_tasks_regView inv none none false

/-- C9: the queries `list_tasks` and `last_scheduled_task` leave the
Inventory's own state unchanged: every registration keeps its kind, type tag
and provider function (only the source-internal state, which in the original
lives outside the Inventory in the reactive context, may change), the usage
history is untouched, and hence the recency score of every identifier in any
future listing is unchanged. -/
theorem c9_queries_preserve_inventory_state :
    (∀ (inv : Inventory) (p : Option AbsolutePath) (wt : Option WorktreeId) (lru : Bool),
      ((inv.list_tasks p wt lru).2).sources.map regView = inv.sources.map regView ∧
      ((inv.list_tasks p wt lru).2).last_scheduled_tasks = inv.last_scheduled_tasks ∧
      (∀ (lru' : Bool) (id : TaskId),
        ((inv.list_tasks p wt lru).2).scoreOf lru' id = inv.scoreOf lru' id)) ∧
    (∀ inv : Inventory,
      ((inv.last_scheduled_task).2).sources.map regView = inv.sources.map regView ∧
      ((inv.last_scheduled_task).2).last_scheduled_tasks = inv.last_scheduled_tasks ∧
      (∀ (lru' : Bool) (id : TaskId),
        ((inv.last_scheduled_task).2).scoreOf lru' id = inv.scoreOf lru' id)) := by
  constructor
  · intro inv p wt lru
    exact ⟨list_tasks_regView inv p wt lru, list_tasks_history inv p wt lru,
      fun lru' id => scoreOf_hist_congr _ _ (list_tasks_history inv p wt lru) lru' id⟩
  · intro inv
    exact ⟨last_scheduled_task_regView inv, last_scheduled_task_history inv,
      fun lru' id => scoreOf_hist_congr _ _ (last_scheduled_task_history inv) lru' id⟩

/-! ## Resolving the last scheduled task -/

theorem last_scheduled_task_fst (inv : Inventory) (id : TaskId)
    (h : inv.last_scheduled_tasks.getLast? = some id) :
    (inv.last_scheduled_task).1 =
      ((inv.list_tasks none none false).1.find? fun kt => kt.2.id == id).map
        fun kt => kt.2 := by
  unfold Inventory.last_scheduled_task
  rw [h]

/-- C8: `last_scheduled_task` is `none` when the history is empty; with a
non-empty history ending in `id`, it is `none` exactly when no pair of the
unfiltered non-recency listing — equivalently, no task any registered source
currently produces — has identifier `id`; and when it returns a task, that
task is the first listing entry with identifier `id`. -/
theorem c8_last_scheduled_resolution :
    (∀ inv : Inventory, inv.last_scheduled_tasks = [] →
      (inv.last_scheduled_task).1 = none) ∧
    (∀ (inv : Inventory) (id : TaskId), inv.last_scheduled_tasks.getLast? = some id →
      ((inv.last_scheduled_task).1 = none ↔
        ∀ kt ∈ (inv.list_tasks none none false).1, ¬ kt.2.id = id)) ∧
    (∀ (inv : Inventory) (id : TaskId), inv.last_scheduled_tasks.getLast? = some id →
      ((inv.last_scheduled_task).1 = none ↔
        ∀ s ∈ inv.sources, ∀ t ∈ (s.source.tasksForPath s.source.state none).1,
          ¬ t.id = id)) ∧
    (∀ (inv : Inventory) (id : TaskId) (t : Task),
      inv.last_scheduled_tasks.getLast? = some id →
      (inv.last_scheduled_task).1 = some t →
      t.id = id ∧ ∃ (k : TaskSourceKind) (l₁ l₂ : List (TaskSourceKind × Task)),
        (inv.list_tasks none none false).1 = l₁ ++ (k, t) :: l₂ ∧
        ∀ kt ∈ l₁, ¬ kt.2.id = id) := by
  have hnone : ∀ (inv : Inventory) (id : TaskId),
      inv.last_scheduled_tasks.getLast? = some id →
      ((inv.last_scheduled_task).1 = none ↔
        ∀ kt ∈ (inv.list_tasks none none false).1, ¬ kt.2.id = id) := by
    intro inv id h
    rw [last_scheduled_task_fst inv id h, Option.map_eq_none', List.find?_eq_none]
    simp only [beq_iff_eq]
  refine ⟨?_, hnone, ?_, ?_⟩
  · intro inv h
    simp [Inventory.last_scheduled_task, h]
  · intro inv id h
    rw [hnone inv id h]
    have hfilter : inv.sources.filter (participates none) = inv.sources :=
      List.filter_eq_self.2 fun s _ => rfl
    have hperm := list_tasks_perm inv none none false
    rw [hfilter] at hperm
    constructor
    · intro hall s hs t ht
      exact hall (s.kind, t)
        (hperm.mem_iff.2 (List.mem_flatMap.2 ⟨s, hs, List.mem_map.2 ⟨t, ht, rfl⟩⟩))
    · intro hall kt hkt
      rcases List.mem_flatMap.1 (hperm.mem_iff.1 hkt) with ⟨s, hs, hkt2⟩
      rcases List.mem_map.1 hkt2 with ⟨t, ht, rfl⟩
      exact hall s hs t ht
  · intro inv id t h hsome
    rw [last_scheduled_task_fst inv id h] at hsome
    rcases Option.map_eq_some'.1 hsome with ⟨kt, hfind, rfl⟩
    rcases List.find?_eq_some.1 hfind with ⟨hp, as, bs, heq, hall⟩
    refine ⟨beq_iff_eq.1 hp, kt.1, as, bs, ?_, ?_⟩
    · rw [heq]
    · intro kt' hkt'
      have hb := hall kt' hkt'
      simpa [Bool.not_eq_true'] using hb

/-- A source producing the two tasks "1" (id "a") and "2" (id "b"). -/
def exSourceD : TaskSource := ⟨0, fun st _ => ([⟨"a", "1"⟩, ⟨"b", "2"⟩], st), 9⟩

/-- An inventory whose usage history ends in the identifier "b". -/
def exInvF : Inventory := ⟨[⟨exSourceD, 9, .UserInput⟩], ["b"]⟩

/-- Witness for C8: with history ending in "b", the lookup returns the task
named "2" with identifier "b", the first matching entry of the listing. -/
theorem c8_last_scheduled_resolution_witness :
    (⟨"b", "2"⟩ : Task).id = "b" ∧
      ∃ (k : TaskSourceKind) (l₁ l₂ : List (TaskSourceKind × Task)),
        (exInvF.list_tasks none none false).1 = l₁ ++ (k, ⟨"b", "2"⟩) :: l₂ ∧
        ∀ kt ∈ l₁, ¬ kt.2.id = "b" :=
  c8_last_scheduled_resolution.2.2.2 exInvF "b" ⟨"b", "2"⟩ (by decide) (by decide)

end TaskInv
